import Mathlib

/-!
Verification development for `advML/defense/squeezers.py`: feature-squeezing
transforms (bit-depth quantization, median/mean filtering, non-local-means
denoising) over image tensors.

Numeric arrays are modelled as nested trees of rationals (`Np`), the exact
counterpart of a numpy ndarray of floats; rank (`ndim`) is the nesting depth.
A torch tensor is a device tag plus such an array.  The external scipy /
scikit-image primitives are opaque black boxes per the spec, so the squeezers
are parameterized over them.  `X.detach().cpu().numpy()` yields an array with
the same values as `X`; when `X` already lives on the CPU this array is a view
sharing `X`'s buffer, so in-place writes to it are visible through `X` — the
full-state version of the denoiser returns the (possibly mutated) input tensor
alongside the output to make that observable.
-/

/-- A numpy-style n-dimensional array of (exact) scalars: a scalar, or a list
of subarrays along the leading axis. -/
inductive Np where
  | base : ℚ → Np
  | node : List Np → Np

/-- Compute device of a torch tensor. -/
inductive Device where
  | cpu : Device
  | cuda : Device
deriving DecidableEq

/-- A torch tensor: a device tag and its data. -/
structure Tensor where
  device : Device
  arr : Np

/-- Boundary mode accepted by the scipy windowed filters. -/
inductive Mode where
  | reflect : Mode
  | constant : Mode
  | nearest : Mode
  | wrap : Mode
  | mirror : Mode
deriving DecidableEq

namespace Np

/-- Number of axes (`.ndim`), read off the leading entries; agrees with
numpy's stored rank on well-formed nonempty arrays. -/
def ndim : Np → ℕ
  | base _ => 0
  | node [] => 1
  | node (x :: _) => 1 + ndim x

/-- Extent of the leading axis (`.shape[0]`). -/
def dim0 : Np → ℕ
  | base _ => 0
  | node xs => xs.length

/-- Subarrays along the leading axis. -/
def children : Np → List Np
  | base _ => []
  | node xs => xs

/-- Indexing along the leading axis (`a[i]`). -/
def child (a : Np) (i : ℕ) : Np :=
  a.children.getD i (base 0)

mutual
/-- Elementwise map over all scalars. -/
def npMap (f : ℚ → ℚ) : Np → Np
  | base q => base (f q)
  | node xs => node (npMapL f xs)

/-- Elementwise map over a list of arrays. -/
def npMapL (f : ℚ → ℚ) : List Np → List Np
  | [] => []
  | x :: xs => npMap f x :: npMapL f xs
end

mutual
/-- All scalar elements of an array, flattened in row-major order. -/
def elems : Np → List ℚ
  | base q => [q]
  | node xs => elemsL xs

/-- All scalar elements of a list of arrays. -/
def elemsL : List Np → List ℚ
  | [] => []
  | x :: xs => elems x ++ elemsL xs
end

/-- Predicate: `a` is a well-formed array of the given shape: uniform nesting, every
axis-`k` slice having extent `s[k]`. -/
inductive WfShape : Np → List ℕ → Prop where
  | base (q : ℚ) : WfShape (base q) []
  | node (xs : List Np) (s : List ℕ) :
      (∀ x ∈ xs, WfShape x s) → WfShape (node xs) (xs.length :: s)

/-- Element access of a rank-3 array: `a[x, y, z]`. -/
def at3 (a : Np) (x y z : ℕ) : Np :=
  ((a.child x).child y).child z

/-- numpy's `a.transpose(1, 2, 0)` on a rank-3 array of shape `(s0, s1, s2)`:
the result has shape `(s1, s2, s0)` and entry `(i, j, k) ↦ a[k, i, j]`. -/
def transpose120 (a : Np) : Np :=
  let s0 := a.dim0
  let s1 := (a.child 0).dim0
  let s2 := ((a.child 0).child 0).dim0
  node (List.ofFn fun i : Fin s1 => node (List.ofFn fun j : Fin s2 =>
    node (List.ofFn fun k : Fin s0 => a.at3 k i j)))

/-- numpy's `a.transpose(2, 0, 1)` on a rank-3 array of shape `(s0, s1, s2)`:
the result has shape `(s2, s0, s1)` and entry `(i, j, k) ↦ a[j, k, i]`. -/
def transpose201 (a : Np) : Np :=
  let s0 := a.dim0
  let s1 := (a.child 0).dim0
  let s2 := ((a.child 0).child 0).dim0
  node (List.ofFn fun i : Fin s2 => node (List.ofFn fun j : Fin s0 =>
    node (List.ofFn fun k : Fin s1 => a.at3 j k i)))

end Np

/-- IEEE round-half-to-even on an exact scalar, the rounding used by
`torch.round`. -/
def roundEven (q : ℚ) : ℤ :=
  let f := ⌊q⌋
  if q - f < 1 / 2 then f
  else if 1 / 2 < q - f then f + 1
  else if f % 2 = 0 then f else f + 1

/-- Source function `bit_depth_squeeze(X, bit_depth)`:
`precision = 2**bit_depth - 1; X_squeezed = torch.round(X * precision);
X_squeezed /= precision; return X_squeezed`.  The in-place `/=` hits only the
fresh tensor produced by `torch.round`, never `X`. -/
def bit_depth_squeeze (X : Tensor) (bit_depth : ℤ) : Tensor :=
  let precision : ℚ := 2 ^ bit_depth - 1
  ⟨X.device, Np.npMap (fun q => (roundEven (q * precision) : ℚ) / precision) X.arr⟩

/-- Source function `median_filter_squeeze(X, size)`, parameterized by the opaque scipy
primitive `ndimage.median_filter`.  The source builds
`AssertionError(...)` for ranks outside 2..4 but never raises it, so that
line has no effect; `X_np = X.detach().cpu().numpy()` has `X`'s values; the
result is `torch.from_numpy(X_np).to(X.device)`. -/
def median_filter_squeeze (median_filter : Np → List ℤ → Mode → Np)
    (X : Tensor) (size : ℤ) : Tensor :=
  let X_np := X.arr
  let X_np :=
    if X_np.ndim = 2 then median_filter X_np [size, size] Mode.reflect
    else if X_np.ndim = 3 then median_filter X_np [1, size, size] Mode.reflect
    else if X_np.ndim = 4 then median_filter X_np [1, 1, size, size] Mode.reflect
    else X_np
  ⟨X.device, X_np⟩

/-- Source function `mean_filter_squeeze(X, size)`, parameterized by the opaque scipy
primitive `ndimage.uniform_filter`; same structure as the median filter
(unraised `AssertionError` included). -/
def mean_filter_squeeze (uniform_filter : Np → List ℤ → Mode → Np)
    (X : Tensor) (size : ℤ) : Tensor :=
  let X_np := X.arr
  let X_np :=
    if X_np.ndim = 2 then uniform_filter X_np [size, size] Mode.reflect
    else if X_np.ndim = 3 then uniform_filter X_np [1, size, size] Mode.reflect
    else if X_np.ndim = 4 then uniform_filter X_np [1, 1, size, size] Mode.reflect
    else X_np
  ⟨X.device, X_np⟩

/-- The rank-4 loop `for i in range(X_np.shape[0]): X_np[i] = g(X_np[i])`,
processing slots `i, i+1, ...` of the evolving list in ascending order. -/
def nlmLoopFrom (g : Np → Np) (st : List Np) (i : ℕ) : List Np :=
  if h : i < st.length then
    nlmLoopFrom g (st.set i (g (st.getD i (Np.base 0)))) (i + 1)
  else st
termination_by st.length - i
decreasing_by simp only [List.length_set]; omega

/-- Source function `non_local_means_squeeze(X, patch_size, patch_distance, fast_mode)`,
parameterized by the opaque scikit-image primitive
`restoration.denoise_nl_means` (array, patch_size, patch_distance, fast_mode;
`channel_axis=-1` is fixed in `patch_kwargs`).  Returns the pair
(input tensor after the call, output tensor): the rank-4 branch assigns
`X_np[i] = ...` in place, and when `X` is a CPU tensor `X_np` is a view of
`X`'s buffer, so those writes mutate `X` itself.  The source's unraised
`AssertionError` for ranks outside 2..4 again has no effect. -/
def non_local_means_squeeze_full (denoise_nl_means : Np → ℤ → ℤ → Bool → Np)
    (X : Tensor) (patch_size patch_distance : ℤ) (fast_mode : Bool) :
    Tensor × Tensor :=
  let X_np := X.arr
  if X_np.ndim = 2 then
    (X, ⟨X.device, denoise_nl_means X_np patch_size patch_distance fast_mode⟩)
  else if X_np.ndim = 3 then
    (X, ⟨X.device, Np.transpose201
      (denoise_nl_means (Np.transpose120 X_np) patch_size patch_distance true)⟩)
  else if X_np.ndim = 4 then
    let X_np' := Np.node (nlmLoopFrom
      (fun s => Np.transpose201
        (denoise_nl_means (Np.transpose120 s) patch_size patch_distance true))
      X_np.children 0)
    (if X.device = Device.cpu then ⟨Device.cpu, X_np'⟩ else X,
     ⟨X.device, X_np'⟩)
  else
    (X, ⟨X.device, X_np⟩)

/-- The call `non_local_means_squeeze` as seen by a caller that only looks at the
return value. -/
def non_local_means_squeeze (denoise_nl_means : Np → ℤ → ℤ → Bool → Np)
    (X : Tensor) (patch_size patch_distance : ℤ) (fast_mode : Bool) : Tensor :=
  (non_local_means_squeeze_full denoise_nl_means X patch_size patch_distance
    fast_mode).2

/-! ## Basic lemmas about the array model -/

namespace Np

theorem npMapL_eq (f : ℚ → ℚ) (xs : List Np) : npMapL f xs = xs.map (npMap f) := by
  induction xs with
  | nil => rfl
  | cons x xs ih => rw [npMapL, ih, List.map_cons]

theorem npMap_node (f : ℚ → ℚ) (xs : List Np) :
    npMap f (node xs) = node (xs.map (npMap f)) := by
  rw [npMap, npMapL_eq]

theorem elemsL_eq (xs : List Np) : elemsL xs = xs.flatMap elems := by
  induction xs with
  | nil => rfl
  | cons x xs ih => rw [elemsL, ih, List.flatMap_cons]

theorem elems_node (xs : List Np) : elems (node xs) = xs.flatMap elems := by
  rw [elems, elemsL_eq]

/-- Induction over arrays, with the inductive hypothesis available for every
subarray. -/
theorem np_induction (P : Np → Prop) (hb : ∀ q, P (base q))
    (hn : ∀ xs, (∀ x ∈ xs, P x) → P (node xs)) : ∀ a, P a := by
  intro a
  induction a using Np.rec (motive_2 := fun xs => ∀ x ∈ xs, P x) with
  | base q => exact hb q
  | node xs ih => exact hn xs ih
  | nil =>
    rename_i x hx
    exact absurd hx (List.not_mem_nil x)
  | cons y ys hy hys =>
    rename_i x hx
    rcases List.mem_cons.mp hx with h | h
    · exact h ▸ hy
    · exact hys x h

theorem npMap_npMap (f g : ℚ → ℚ) (a : Np) :
    npMap f (npMap g a) = npMap (fun q => f (g q)) a := by
  induction a using np_induction with
  | hb q => rfl
  | hn xs ih =>
    rw [npMap_node, npMap_node, npMap_node, List.map_map]
    exact congrArg node (List.map_congr_left fun x hx => ih x hx)

theorem mem_elems_npMap (f : ℚ → ℚ) (a : Np) (y : ℚ) :
    y ∈ elems (npMap f a) ↔ ∃ q ∈ elems a, y = f q := by
  induction a using np_induction with
  | hb q => simp [npMap, elems]
  | hn xs ih =>
    rw [npMap_node, elems_node, elems_node]
    simp only [List.mem_flatMap, List.mem_map]
    constructor
    · rintro ⟨z, ⟨x, hx, rfl⟩, hz⟩
      rcases (ih x hx).mp hz with ⟨q, hq, rfl⟩
      exact ⟨q, ⟨x, hx, hq⟩, rfl⟩
    · rintro ⟨q, ⟨x, hx, hq⟩, rfl⟩
      exact ⟨npMap f x, ⟨x, hx, rfl⟩, (ih x hx).mpr ⟨q, hq, rfl⟩⟩

theorem wfShape_npMap (f : ℚ → ℚ) {a : Np} {s : List ℕ} (h : WfShape a s) :
    WfShape (npMap f a) s := by
  induction h with
  | base q => exact WfShape.base (f q)
  | node xs s _ ih =>
    rw [npMap_node]
    have : (xs.map (npMap f)).length = xs.length := List.length_map xs _
    rw [← this]
    exact WfShape.node _ s (by
      intro y hy
      rcases List.mem_map.mp hy with ⟨x, hx, rfl⟩
      exact ih x hx)

theorem wfShape_dim0 {a : Np} {n : ℕ} {s : List ℕ} (h : WfShape a (n :: s)) :
    a.dim0 = n := by
  cases h with
  | node xs s _ => rfl

theorem wfShape_child {a : Np} {n : ℕ} {s : List ℕ} (h : WfShape a (n :: s))
    {i : ℕ} (hi : i < n) : WfShape (a.child i) s := by
  cases h with
  | node xs s hxs =>
    rw [child, children, List.getD_eq_getElem xs (Np.base 0) hi]
    exact hxs _ (List.getElem_mem hi)

theorem wfShape_ndim {a : Np} {s : List ℕ} (h : WfShape a s)
    (hpos : ∀ d ∈ s, 0 < d) : a.ndim = s.length := by
  induction h with
  | base q => rfl
  | node xs s hxs ih =>
    cases xs with
    | nil =>
      exact absurd (hpos 0 (List.mem_cons_self _ _)) (by simp)
    | cons x rest =>
      have hx : WfShape x s := hxs x (List.mem_cons_self x rest)
      rw [ndim, ih x (List.mem_cons_self x rest)
        (fun d hd => hpos d (List.mem_cons_of_mem _ hd))]
      simp [Nat.add_comm]

end Np

/-! ## Rounding lemmas -/

theorem roundEven_intCast (k : ℤ) : roundEven (k : ℚ) = k := by
  simp only [roundEven, Int.floor_intCast, sub_self]
  norm_num

theorem roundEven_nonneg {q : ℚ} (h : 0 ≤ q) : 0 ≤ roundEven q := by
  have hf : (0 : ℤ) ≤ ⌊q⌋ := Int.floor_nonneg.mpr h
  simp only [roundEven]
  split_ifs <;> omega

theorem roundEven_le {q : ℚ} {m : ℤ} (h : q ≤ (m : ℚ)) : roundEven q ≤ m := by
  have hf : ⌊q⌋ ≤ m := by
    have := Int.floor_mono h
    rwa [Int.floor_intCast] at this
  have hstep : ¬ q - (⌊q⌋ : ℚ) < 1 / 2 → ⌊q⌋ + 1 ≤ m := by
    intro h1
    have h1' := not_lt.mp h1
    have hq : (⌊q⌋ : ℚ) < q := by linarith
    have : (⌊q⌋ : ℚ) < (m : ℚ) := lt_of_lt_of_le hq h
    have : ⌊q⌋ < m := by exact_mod_cast this
    omega
  simp only [roundEven]
  split_ifs with h1 h2 h3
  · exact hf
  · exact hstep h1
  · exact hf
  · exact hstep h1

/-! ## The rank-4 denoiser loop acts as an independent map over the batch -/

theorem nlmLoopFrom_eq (g : Np → Np) :
    ∀ (n : ℕ) (st : List Np) (i : ℕ), st.length - i ≤ n →
      nlmLoopFrom g st i = st.take i ++ (st.drop i).map g := by
  intro n
  induction n with
  | zero =>
    intro st i h
    have hni : ¬ i < st.length := by omega
    rw [nlmLoopFrom, dif_neg hni]
    rw [List.drop_eq_nil_of_le (by omega), List.take_of_length_le (by omega)]
    simp
  | succ n ih =>
    intro st i h
    by_cases hi : i < st.length
    · have hv : st.getD i (Np.base 0) = st[i] := List.getD_eq_getElem st (Np.base 0) hi
      rw [nlmLoopFrom, dif_pos hi, hv]
      rw [ih _ (i + 1) (by simp only [List.length_set]; omega)]
      have hsplit : st.set i (g st[i]) = st.take i ++ g st[i] :: st.drop (i + 1) := by
        rw [List.set_eq_take_append_cons_drop, if_pos hi]
      have hlen : (st.take i).length = i := by
        rw [List.length_take]
        omega
      have hone : i + 1 - i = 1 := by omega
      have htake : (st.set i (g st[i])).take (i + 1) = st.take i ++ [g st[i]] := by
        rw [hsplit, List.take_append_eq_append_take,
          List.take_of_length_le (le_of_eq_of_le hlen (by omega)), hlen, hone]
        rfl
      have hdrop : (st.set i (g st[i])).drop (i + 1) = st.drop (i + 1) := by
        rw [hsplit, List.drop_append_eq_append_drop,
          List.drop_eq_nil_of_le (le_of_eq_of_le hlen (by omega)), hlen, hone]
        rfl
      rw [htake, hdrop, List.drop_eq_getElem_cons hi, List.map_cons, List.append_assoc]
      rfl
    · rw [nlmLoopFrom, dif_neg hi]
      rw [List.drop_eq_nil_of_le (by omega), List.take_of_length_le (by omega)]
      simp

/-- The source loop `for i in range(len(st)): st[i] = g(st[i])` rewrites every
slot independently: it equals a plain map. -/
theorem nlmLoop_eq_map (g : Np → Np) (st : List Np) :
    nlmLoopFrom g st 0 = st.map g := by
  rw [nlmLoopFrom_eq g st.length st 0 (by omega)]
  simp

/-! ## Well-formedness of the layout transpositions -/

namespace Np

theorem npMap_congr {f g : ℚ → ℚ} (h : ∀ q, f q = g q) (a : Np) :
    npMap f a = npMap g a := by
  induction a using np_induction with
  | hb q => simp [npMap, h]
  | hn xs ih =>
    rw [npMap_node, npMap_node]
    exact congrArg node (List.map_congr_left ih)

theorem wfShape_children {a : Np} {n : ℕ} {s : List ℕ} (h : WfShape a (n :: s)) :
    a.children.length = n ∧ ∀ x ∈ a.children, WfShape x s := by
  cases h with
  | node xs s hxs => exact ⟨rfl, hxs⟩

theorem wfShape_at3 {a : Np} {s0 s1 s2 : ℕ} (h : WfShape a [s0, s1, s2])
    {x y z : ℕ} (hx : x < s0) (hy : y < s1) (hz : z < s2) :
    WfShape (a.at3 x y z) [] :=
  wfShape_child (wfShape_child (wfShape_child h hx) hy) hz

theorem wfShape_ofFn {m : ℕ} {f : Fin m → Np} {s : List ℕ}
    (h : ∀ i, WfShape (f i) s) : WfShape (Np.node (List.ofFn f)) (m :: s) := by
  have hl : (List.ofFn f).length = m := List.length_ofFn f
  have hnode : WfShape (Np.node (List.ofFn f)) ((List.ofFn f).length :: s) := by
    refine WfShape.node _ s ?_
    intro x hx
    rcases Set.mem_range.mp ((List.mem_ofFn f x).mp hx) with ⟨i, rfl⟩
    exact h i
  rwa [hl] at hnode

theorem wfShape_transpose120 {a : Np} {s0 s1 s2 : ℕ} (h : WfShape a [s0, s1, s2])
    (h0 : 0 < s0) (h1 : 0 < s1) : WfShape a.transpose120 [s1, s2, s0] := by
  have hd0 : a.dim0 = s0 := wfShape_dim0 h
  have hc0 : WfShape (a.child 0) [s1, s2] := wfShape_child h h0
  have hd1 : (a.child 0).dim0 = s1 := wfShape_dim0 hc0
  have hd2 : ((a.child 0).child 0).dim0 = s2 := wfShape_dim0 (wfShape_child hc0 h1)
  simp only [transpose120, hd0, hd1, hd2]
  exact wfShape_ofFn fun i => wfShape_ofFn fun j => wfShape_ofFn fun k =>
    wfShape_at3 h k.isLt i.isLt j.isLt

theorem wfShape_transpose201 {a : Np} {s0 s1 s2 : ℕ} (h : WfShape a [s0, s1, s2])
    (h0 : 0 < s0) (h1 : 0 < s1) : WfShape a.transpose201 [s2, s0, s1] := by
  have hd0 : a.dim0 = s0 := wfShape_dim0 h
  have hc0 : WfShape (a.child 0) [s1, s2] := wfShape_child h h0
  have hd1 : (a.child 0).dim0 = s1 := wfShape_dim0 hc0
  have hd2 : ((a.child 0).child 0).dim0 = s2 := wfShape_dim0 (wfShape_child hc0 h1)
  simp only [transpose201, hd0, hd1, hd2]
  exact wfShape_ofFn fun i => wfShape_ofFn fun j => wfShape_ofFn fun k =>
    wfShape_at3 h j.isLt k.isLt i.isLt

end Np

/-! ## Arithmetic helpers for the quantizer -/

theorem two_zpow_ge_two {b : ℤ} (hb : 1 ≤ b) : (2 : ℚ) ≤ 2 ^ b := by
  have h1 : ((2 : ℚ) ^ (1 : ℤ)) = 2 := by norm_num
  calc (2 : ℚ) = 2 ^ (1 : ℤ) := h1.symm
    _ ≤ 2 ^ b := by
      apply zpow_le_zpow_right₀ (by norm_num) hb

theorem two_zpow_sub_one_pos {b : ℤ} (hb : 1 ≤ b) : (0 : ℚ) < 2 ^ b - 1 := by
  have := two_zpow_ge_two hb
  linarith

theorem two_zpow_intCast {b : ℤ} (hb : 1 ≤ b) :
    ((2 ^ b.toNat - 1 : ℤ) : ℚ) = 2 ^ b - 1 := by
  have hbn : (b.toNat : ℤ) = b := Int.toNat_of_nonneg (by omega)
  have h2 : (2 : ℚ) ^ b = (2 : ℚ) ^ b.toNat := by
    conv_lhs => rw [← hbn]
    exact zpow_natCast 2 b.toNat
  push_cast
  rw [h2]

/-! ## Claim theorems: the bit-depth quantizer -/

/-- C8: for every tensor `X` with all elements in `[0, 1]` and every
`bit_depth ≥ 1`, `bit_depth_squeeze(X, bit_depth)` computes
`round(X * (2^bit_depth - 1)) / (2^bit_depth - 1)` elementwise, and every
element of the result equals `k / (2^bit_depth - 1)` for some integer `k` in
`[0, 2^bit_depth - 1]`. -/
theorem bit_depth_squeeze_grid (X : Tensor) (bit_depth : ℤ) (hb : 1 ≤ bit_depth)
    (hX : ∀ q ∈ X.arr.elems, 0 ≤ q ∧ q ≤ 1) :
    (bit_depth_squeeze X bit_depth).arr =
      Np.npMap (fun q =>
        (roundEven (q * (2 ^ bit_depth - 1)) : ℚ) / (2 ^ bit_depth - 1)) X.arr ∧
    ∀ y ∈ (bit_depth_squeeze X bit_depth).arr.elems,
      ∃ k : ℤ, 0 ≤ k ∧ (k : ℚ) ≤ 2 ^ bit_depth - 1 ∧
        y = (k : ℚ) / (2 ^ bit_depth - 1) := by
  have hp : (0 : ℚ) < 2 ^ bit_depth - 1 := two_zpow_sub_one_pos hb
  refine ⟨rfl, ?_⟩
  intro y hy
  simp only [bit_depth_squeeze] at hy
  rcases (Np.mem_elems_npMap _ _ _).mp hy with ⟨q, hq, rfl⟩
  obtain ⟨hq0, hq1⟩ := hX q hq
  refine ⟨roundEven (q * (2 ^ bit_depth - 1)), ?_, ?_, rfl⟩
  · exact roundEven_nonneg (mul_nonneg hq0 (le_of_lt hp))
  · have hm : q * (2 ^ bit_depth - 1) ≤ ((2 ^ bit_depth.toNat - 1 : ℤ) : ℚ) := by
      rw [two_zpow_intCast hb]
      exact mul_le_of_le_one_left (le_of_lt hp) hq1
    have hle := roundEven_le hm
    calc ((roundEven (q * (2 ^ bit_depth - 1)) : ℤ) : ℚ)
        ≤ ((2 ^ bit_depth.toNat - 1 : ℤ) : ℚ) := by exact_mod_cast hle
      _ = 2 ^ bit_depth - 1 := two_zpow_intCast hb

/-- Witness for C8 at a concrete input: a CPU vector `[0, 1/5, 4/5]` with
`bit_depth = 1`. -/
theorem bit_depth_squeeze_grid_witness :
    ((1 : ℤ) ≤ 1 ∧
      ∀ q ∈ (Tensor.mk Device.cpu
        (Np.node [Np.base 0, Np.base (1/5), Np.base (4/5)])).arr.elems,
        0 ≤ q ∧ q ≤ 1) ∧
    ((bit_depth_squeeze
        ⟨Device.cpu, Np.node [Np.base 0, Np.base (1/5), Np.base (4/5)]⟩ 1).arr =
      Np.npMap (fun q => (roundEven (q * (2 ^ (1:ℤ) - 1)) : ℚ) / (2 ^ (1:ℤ) - 1))
        (Tensor.mk Device.cpu
          (Np.node [Np.base 0, Np.base (1/5), Np.base (4/5)])).arr ∧
      ∀ y ∈ (bit_depth_squeeze
          ⟨Device.cpu, Np.node [Np.base 0, Np.base (1/5), Np.base (4/5)]⟩ 1).arr.elems,
        ∃ k : ℤ, 0 ≤ k ∧ (k : ℚ) ≤ 2 ^ (1:ℤ) - 1 ∧
          y = (k : ℚ) / (2 ^ (1:ℤ) - 1)) := by
  have hX : ∀ q ∈ (Tensor.mk Device.cpu
      (Np.node [Np.base 0, Np.base (1/5), Np.base (4/5)])).arr.elems,
      0 ≤ q ∧ q ≤ 1 := by
    intro q hq
    simp only [Np.elems, Np.elemsL, List.mem_append, List.mem_singleton,
      List.not_mem_nil, or_false] at hq
    rcases hq with rfl | rfl | rfl <;> norm_num
  exact ⟨⟨le_refl 1, hX⟩,
    bit_depth_squeeze_grid ⟨Device.cpu, Np.node [Np.base 0, Np.base (1/5), Np.base (4/5)]⟩
      1 (le_refl 1) hX⟩

/-- C9: `bit_depth_squeeze` is idempotent: squeezing twice at the same
bit depth equals squeezing once. -/
theorem bit_depth_squeeze_idempotent (X : Tensor) (bit_depth : ℤ)
    (hb : 1 ≤ bit_depth) :
    bit_depth_squeeze (bit_depth_squeeze X bit_depth) bit_depth =
      bit_depth_squeeze X bit_depth := by
  have hp : (0 : ℚ) < 2 ^ bit_depth - 1 := two_zpow_sub_one_pos hb
  have hne : (2 ^ bit_depth - 1 : ℚ) ≠ 0 := ne_of_gt hp
  show Tensor.mk X.device
      (Np.npMap (fun q => (roundEven (q * (2 ^ bit_depth - 1)) : ℚ) / (2 ^ bit_depth - 1))
        (Np.npMap (fun q => (roundEven (q * (2 ^ bit_depth - 1)) : ℚ) / (2 ^ bit_depth - 1))
          X.arr)) =
    Tensor.mk X.device
      (Np.npMap (fun q => (roundEven (q * (2 ^ bit_depth - 1)) : ℚ) / (2 ^ bit_depth - 1))
        X.arr)
  refine congrArg _ ?_
  rw [Np.npMap_npMap]
  refine Np.npMap_congr ?_ _
  intro q
  have hcancel : ((roundEven (q * (2 ^ bit_depth - 1)) : ℤ) : ℚ) / (2 ^ bit_depth - 1)
      * (2 ^ bit_depth - 1) = ((roundEven (q * (2 ^ bit_depth - 1)) : ℤ) : ℚ) :=
    div_mul_cancel₀ _ hne
  rw [hcancel, roundEven_intCast]

/-- Witness for C9 at a concrete input: a CPU scalar tensor `3/10` with
`bit_depth = 2`. -/
theorem bit_depth_squeeze_idempotent_witness :
    (1 : ℤ) ≤ 2 ∧
    bit_depth_squeeze (bit_depth_squeeze ⟨Device.cpu, Np.base (3/10)⟩ 2) 2 =
      bit_depth_squeeze ⟨Device.cpu, Np.base (3/10)⟩ 2 :=
  ⟨by norm_num, bit_depth_squeeze_idempotent ⟨Device.cpu, Np.base (3/10)⟩ 2 (by norm_num)⟩

/-! ## Claim theorems: rank handling -/

/-- C10: for a tensor whose rank is outside {2,3,4}, each of the three
rank-dispatching squeezers completes without any error and returns a tensor
with the input's device and exactly the input's data: no filter branch
matches, so the call acts as the identity. -/
theorem invalid_rank_returns_input_unchanged
    (median_filter uniform_filter : Np → List ℤ → Mode → Np)
    (denoise_nl_means : Np → ℤ → ℤ → Bool → Np)
    (X : Tensor) (size patch_size patch_distance : ℤ) (fast_mode : Bool)
    (hr : X.arr.ndim < 2 ∨ 4 < X.arr.ndim) :
    median_filter_squeeze median_filter X size = Tensor.mk X.device X.arr ∧
    mean_filter_squeeze uniform_filter X size = Tensor.mk X.device X.arr ∧
    non_local_means_squeeze denoise_nl_means X patch_size patch_distance fast_mode
      = Tensor.mk X.device X.arr := by
  have h2 : ¬ X.arr.ndim = 2 := by omega
  have h3 : ¬ X.arr.ndim = 3 := by omega
  have h4 : ¬ X.arr.ndim = 4 := by omega
  refine ⟨?_, ?_, ?_⟩ <;>
    simp [median_filter_squeeze, mean_filter_squeeze, non_local_means_squeeze,
      non_local_means_squeeze_full, h2, h3, h4]

/-- Witness for C10 at a concrete rank-1 CPU tensor and concrete primitives
that would visibly change the data if they were ever invoked. -/
theorem invalid_rank_returns_input_unchanged_witness :
    ((Tensor.mk Device.cpu (Np.node [Np.base (1/2)])).arr.ndim < 2 ∨
      4 < (Tensor.mk Device.cpu (Np.node [Np.base (1/2)])).arr.ndim) ∧
    (median_filter_squeeze (fun _ _ _ => Np.base 99)
        ⟨Device.cpu, Np.node [Np.base (1/2)]⟩ 3
      = Tensor.mk Device.cpu (Np.node [Np.base (1/2)]) ∧
    mean_filter_squeeze (fun _ _ _ => Np.base 99)
        ⟨Device.cpu, Np.node [Np.base (1/2)]⟩ 3
      = Tensor.mk Device.cpu (Np.node [Np.base (1/2)]) ∧
    non_local_means_squeeze (fun _ _ _ _ => Np.base 99)
        ⟨Device.cpu, Np.node [Np.base (1/2)]⟩ 2 3 false
      = Tensor.mk Device.cpu (Np.node [Np.base (1/2)])) :=
  ⟨Or.inl (by decide),
    invalid_rank_returns_input_unchanged (fun _ _ _ => Np.base 99)
      (fun _ _ _ => Np.base 99) (fun _ _ _ _ => Np.base 99)
      ⟨Device.cpu, Np.node [Np.base (1/2)]⟩ 3 2 3 false (Or.inl (by decide))⟩

/-- C1 (the code bug, demonstrated): the source constructs
`AssertionError(...)` for out-of-range ranks but never raises it, so a rank-5
tensor sails through every squeezer with no error and comes back with its
data unchanged — here with primitives that would rewrite the data to the
scalar 99 if any filter branch ran. -/
theorem rank5_no_error_demo :
    median_filter_squeeze (fun _ _ _ => Np.base 99)
        ⟨Device.cpu, Np.node [Np.node [Np.node [Np.node [Np.node [Np.base (1/2)]]]]]⟩ 3
      = Tensor.mk Device.cpu
          (Np.node [Np.node [Np.node [Np.node [Np.node [Np.base (1/2)]]]]]) ∧
    mean_filter_squeeze (fun _ _ _ => Np.base 99)
        ⟨Device.cpu, Np.node [Np.node [Np.node [Np.node [Np.node [Np.base (1/2)]]]]]⟩ 3
      = Tensor.mk Device.cpu
          (Np.node [Np.node [Np.node [Np.node [Np.node [Np.base (1/2)]]]]]) ∧
    non_local_means_squeeze (fun _ _ _ _ => Np.base 99)
        ⟨Device.cpu, Np.node [Np.node [Np.node [Np.node [Np.node [Np.base (1/2)]]]]]⟩
        2 3 true
      = Tensor.mk Device.cpu
          (Np.node [Np.node [Np.node [Np.node [Np.node [Np.base (1/2)]]]]]) := by
  refine ⟨?_, ?_, ?_⟩ <;>
    simp [median_filter_squeeze, mean_filter_squeeze, non_local_means_squeeze,
      non_local_means_squeeze_full, Np.ndim]

/-! ## Claim theorems: parameter validation -/

/-- C3 counterexample: with nonpositive parameters no error is raised and an
output tensor is produced.  `bit_depth_squeeze` at `bit_depth = 0` computes
`round(X*0)/0` (NaN in float arithmetic, `0` under the exact model's
division-by-zero convention) instead of failing, and the filters and the
denoiser call straight into the primitive — here a primitive returning the
scalar 7, whose value shows up in the output, proving computation happened. -/
theorem no_param_validation_counterexample :
    bit_depth_squeeze ⟨Device.cpu, Np.base (1/2)⟩ 0 = Tensor.mk Device.cpu (Np.base 0) ∧
    median_filter_squeeze (fun _ _ _ => Np.base 7)
        ⟨Device.cpu, Np.node [Np.node [Np.base (1/2)]]⟩ 0
      = Tensor.mk Device.cpu (Np.base 7) ∧
    mean_filter_squeeze (fun _ _ _ => Np.base 7)
        ⟨Device.cpu, Np.node [Np.node [Np.base (1/2)]]⟩ 0
      = Tensor.mk Device.cpu (Np.base 7) ∧
    non_local_means_squeeze (fun _ _ _ _ => Np.base 7)
        ⟨Device.cpu, Np.node [Np.node [Np.base (1/2)]]⟩ 0 (-1) true
      = Tensor.mk Device.cpu (Np.base 7) := by
  refine ⟨?_, ?_, ?_, ?_⟩
  · norm_num [bit_depth_squeeze, Np.npMap, roundEven]
  all_goals
    simp [median_filter_squeeze, mean_filter_squeeze, non_local_means_squeeze,
      non_local_means_squeeze_full, Np.ndim]

/-- C3 amended: none of the four squeezers validates its numeric parameters.
With `bit_depth ≤ 0` the quantizer still computes its elementwise formula and
returns a tensor; with `size ≤ 0` the filters pass the nonpositive window
size straight to the primitive; with nonpositive patch parameters the
denoiser passes them straight to the primitive (rank-2 input shown). -/
theorem no_param_validation
    (median_filter uniform_filter : Np → List ℤ → Mode → Np)
    (denoise_nl_means : Np → ℤ → ℤ → Bool → Np)
    (X X2 : Tensor) (bit_depth size patch_size patch_distance : ℤ)
    (fast_mode : Bool)
    (hb : bit_depth ≤ 0) (hs : size ≤ 0)
    (hpp : patch_size ≤ 0 ∨ patch_distance ≤ 0)
    (h2 : X2.arr.ndim = 2) :
    (bit_depth_squeeze X bit_depth).arr =
      Np.npMap (fun q =>
        (roundEven (q * (2 ^ bit_depth - 1)) : ℚ) / (2 ^ bit_depth - 1)) X.arr ∧
    median_filter_squeeze median_filter X2 size
      = Tensor.mk X2.device (median_filter X2.arr [size, size] Mode.reflect) ∧
    mean_filter_squeeze uniform_filter X2 size
      = Tensor.mk X2.device (uniform_filter X2.arr [size, size] Mode.reflect) ∧
    non_local_means_squeeze denoise_nl_means X2 patch_size patch_distance fast_mode
      = Tensor.mk X2.device
          (denoise_nl_means X2.arr patch_size patch_distance fast_mode) := by
  refine ⟨rfl, ?_, ?_, ?_⟩ <;>
    simp [median_filter_squeeze, mean_filter_squeeze, non_local_means_squeeze,
      non_local_means_squeeze_full, h2]

/-- Witness for the amended C3 at concrete nonpositive parameters. -/
theorem no_param_validation_witness :
    ((0 : ℤ) ≤ 0 ∧ (0 : ℤ) ≤ 0 ∧ ((0 : ℤ) ≤ 0 ∨ (-1 : ℤ) ≤ 0) ∧
      (Tensor.mk Device.cpu (Np.node [Np.node [Np.base (1/2)]])).arr.ndim = 2) ∧
    ((bit_depth_squeeze ⟨Device.cpu, Np.base (1/2)⟩ 0).arr =
      Np.npMap (fun q =>
        (roundEven (q * (2 ^ (0:ℤ) - 1)) : ℚ) / (2 ^ (0:ℤ) - 1))
        (Tensor.mk Device.cpu (Np.base (1/2))).arr ∧
    median_filter_squeeze (fun _ _ _ => Np.base 7)
        ⟨Device.cpu, Np.node [Np.node [Np.base (1/2)]]⟩ 0
      = Tensor.mk (Tensor.mk Device.cpu (Np.node [Np.node [Np.base (1/2)]])).device
          ((fun _ _ _ => Np.base 7)
            (Tensor.mk Device.cpu (Np.node [Np.node [Np.base (1/2)]])).arr
            [0, 0] Mode.reflect) ∧
    mean_filter_squeeze (fun _ _ _ => Np.base 7)
        ⟨Device.cpu, Np.node [Np.node [Np.base (1/2)]]⟩ 0
      = Tensor.mk (Tensor.mk Device.cpu (Np.node [Np.node [Np.base (1/2)]])).device
          ((fun _ _ _ => Np.base 7)
            (Tensor.mk Device.cpu (Np.node [Np.node [Np.base (1/2)]])).arr
            [0, 0] Mode.reflect) ∧
    non_local_means_squeeze (fun _ _ _ _ => Np.base 7)
        ⟨Device.cpu, Np.node [Np.node [Np.base (1/2)]]⟩ 0 (-1) true
      = Tensor.mk (Tensor.mk Device.cpu (Np.node [Np.node [Np.base (1/2)]])).device
          ((fun _ _ _ _ => Np.base 7)
            (Tensor.mk Device.cpu (Np.node [Np.node [Np.base (1/2)]])).arr
            0 (-1) true)) :=
  ⟨⟨le_refl 0, le_refl 0, Or.inl (le_refl 0), by decide⟩,
    no_param_validation (fun _ _ _ => Np.base 7) (fun _ _ _ => Np.base 7)
      (fun _ _ _ _ => Np.base 7) ⟨Device.cpu, Np.base (1/2)⟩
      ⟨Device.cpu, Np.node [Np.node [Np.base (1/2)]]⟩ 0 0 0 (-1) true
      (le_refl 0) (le_refl 0) (Or.inl (le_refl 0)) (by decide)⟩

/-! ## Claim theorems: dispatch to the primitives -/

/-- C4: for valid ranks both spatial smoothers call the windowed filter
primitive with reflect boundary mode and a window spanning `size × size` on
the Height/Width axes and extent 1 on every other axis: `(size, size)` for
rank 2, `(1, size, size)` for rank 3, `(1, 1, size, size)` for rank 4 — the
Channel and Batch axes never enter the smoothing window. -/
theorem filter_window_shapes
    (median_filter uniform_filter : Np → List ℤ → Mode → Np)
    (X : Tensor) (size : ℤ) :
    (X.arr.ndim = 2 →
      median_filter_squeeze median_filter X size
        = Tensor.mk X.device (median_filter X.arr [size, size] Mode.reflect) ∧
      mean_filter_squeeze uniform_filter X size
        = Tensor.mk X.device (uniform_filter X.arr [size, size] Mode.reflect)) ∧
    (X.arr.ndim = 3 →
      median_filter_squeeze median_filter X size
        = Tensor.mk X.device (median_filter X.arr [1, size, size] Mode.reflect) ∧
      mean_filter_squeeze uniform_filter X size
        = Tensor.mk X.device (uniform_filter X.arr [1, size, size] Mode.reflect)) ∧
    (X.arr.ndim = 4 →
      median_filter_squeeze median_filter X size
        = Tensor.mk X.device (median_filter X.arr [1, 1, size, size] Mode.reflect) ∧
      mean_filter_squeeze uniform_filter X size
        = Tensor.mk X.device (uniform_filter X.arr [1, 1, size, size] Mode.reflect)) := by
  refine ⟨fun h => ?_, fun h => ?_, fun h => ?_⟩ <;>
    constructor <;>
      simp [median_filter_squeeze, mean_filter_squeeze, h]

/-- Witness for C4 at a concrete rank-2 CPU tensor. -/
theorem filter_window_shapes_witness :
    (Tensor.mk Device.cpu (Np.node [Np.node [Np.base (1/2)]])).arr.ndim = 2 ∧
    (median_filter_squeeze (fun _ _ _ => Np.base 9)
        ⟨Device.cpu, Np.node [Np.node [Np.base (1/2)]]⟩ 3
      = Tensor.mk (Tensor.mk Device.cpu (Np.node [Np.node [Np.base (1/2)]])).device
          ((fun _ _ _ => Np.base 9)
            (Tensor.mk Device.cpu (Np.node [Np.node [Np.base (1/2)]])).arr
            [3, 3] Mode.reflect) ∧
    mean_filter_squeeze (fun _ _ _ => Np.base 9)
        ⟨Device.cpu, Np.node [Np.node [Np.base (1/2)]]⟩ 3
      = Tensor.mk (Tensor.mk Device.cpu (Np.node [Np.node [Np.base (1/2)]])).device
          ((fun _ _ _ => Np.base 9)
            (Tensor.mk Device.cpu (Np.node [Np.node [Np.base (1/2)]])).arr
            [3, 3] Mode.reflect)) :=
  ⟨by decide,
    (filter_window_shapes (fun _ _ _ => Np.base 9) (fun _ _ _ => Np.base 9)
      ⟨Device.cpu, Np.node [Np.node [Np.base (1/2)]]⟩ 3).1 (by decide)⟩

/-- C7: the denoiser forwards the caller's `fast_mode` to the primitive
exactly in the rank-2 case; for rank 3 it transposes channel-first to
channel-last, calls the primitive with `fast_mode = true` regardless of the
caller's argument, and transposes back; for rank 4 it does the same for each
batch element. -/
theorem nlm_fast_mode_dispatch (denoise_nl_means : Np → ℤ → ℤ → Bool → Np)
    (X : Tensor) (patch_size patch_distance : ℤ) (fast_mode : Bool) :
    (X.arr.ndim = 2 →
      non_local_means_squeeze denoise_nl_means X patch_size patch_distance fast_mode
        = Tensor.mk X.device
            (denoise_nl_means X.arr patch_size patch_distance fast_mode)) ∧
    (X.arr.ndim = 3 →
      non_local_means_squeeze denoise_nl_means X patch_size patch_distance fast_mode
        = Tensor.mk X.device (Np.transpose201
            (denoise_nl_means (Np.transpose120 X.arr) patch_size patch_distance
              true))) ∧
    (X.arr.ndim = 4 →
      non_local_means_squeeze denoise_nl_means X patch_size patch_distance fast_mode
        = Tensor.mk X.device (Np.node (X.arr.children.map (fun s =>
            Np.transpose201
              (denoise_nl_means (Np.transpose120 s) patch_size patch_distance
                true))))) := by
  refine ⟨fun h => ?_, fun h => ?_, fun h => ?_⟩
  · simp [non_local_means_squeeze, non_local_means_squeeze_full, h]
  · simp [non_local_means_squeeze, non_local_means_squeeze_full, h]
  · simp only [non_local_means_squeeze, non_local_means_squeeze_full, h]
    norm_num [nlmLoop_eq_map]

/-- Witness for C7 at a concrete rank-3 CPU tensor with `fast_mode = false`:
the primitive is nevertheless called with `true`. -/
theorem nlm_fast_mode_dispatch_witness :
    (Tensor.mk Device.cpu (Np.node [Np.node [Np.node [Np.base (1/2)]]])).arr.ndim = 3 ∧
    non_local_means_squeeze (fun a _ _ _ => a)
        ⟨Device.cpu, Np.node [Np.node [Np.node [Np.base (1/2)]]]⟩ 1 2 false
      = Tensor.mk (Tensor.mk Device.cpu
            (Np.node [Np.node [Np.node [Np.base (1/2)]]])).device
          (Np.transpose201 ((fun (a : Np) (_ _ : ℤ) (_ : Bool) => a)
            (Np.transpose120
              (Tensor.mk Device.cpu
                (Np.node [Np.node [Np.node [Np.base (1/2)]]])).arr) 1 2 true)) :=
  ⟨by decide,
    (nlm_fast_mode_dispatch (fun a _ _ _ => a)
      ⟨Device.cpu, Np.node [Np.node [Np.node [Np.base (1/2)]]]⟩ 1 2 false).2.1
      (by decide)⟩

/-! ## Claim theorems: shape preservation -/

theorem wfShape_node_of_forall {xs : List Np} {n : ℕ} {s : List ℕ}
    (hlen : xs.length = n) (h : ∀ x ∈ xs, Np.WfShape x s) :
    Np.WfShape (Np.node xs) (n :: s) := by
  subst hlen
  exact Np.WfShape.node xs s h

/-- C5: for every well-formed input (positive extents) and all four
transforms, the output has exactly the input's shape, given the external
primitives' contract that they return arrays of the same shape as their
input. -/
theorem shape_preservation
    (median_filter uniform_filter : Np → List ℤ → Mode → Np)
    (denoise_nl_means : Np → ℤ → ℤ → Bool → Np)
    (X : Tensor) (s : List ℕ) (bit_depth size patch_size patch_distance : ℤ)
    (fast_mode : Bool)
    (hX : Np.WfShape X.arr s) (hpos : ∀ d ∈ s, 0 < d)
    (hmed : ∀ a t ks m, Np.WfShape a t → Np.WfShape (median_filter a ks m) t)
    (huni : ∀ a t ks m, Np.WfShape a t → Np.WfShape (uniform_filter a ks m) t)
    (hnlm : ∀ a t ps pd fm, Np.WfShape a t →
      Np.WfShape (denoise_nl_means a ps pd fm) t) :
    Np.WfShape (bit_depth_squeeze X bit_depth).arr s ∧
    Np.WfShape (median_filter_squeeze median_filter X size).arr s ∧
    Np.WfShape (mean_filter_squeeze uniform_filter X size).arr s ∧
    Np.WfShape (non_local_means_squeeze denoise_nl_means X patch_size
      patch_distance fast_mode).arr s := by
  have hnd : X.arr.ndim = s.length := Np.wfShape_ndim hX hpos
  refine ⟨Np.wfShape_npMap _ hX, ?_, ?_, ?_⟩
  · simp only [median_filter_squeeze]
    split_ifs <;> first
      | exact hmed _ _ _ _ hX
      | exact hX
  · simp only [mean_filter_squeeze]
    split_ifs <;> first
      | exact huni _ _ _ _ hX
      | exact hX
  · rcases s with _ | ⟨d0, s1⟩
    · simp [non_local_means_squeeze, non_local_means_squeeze_full, hnd]
      exact hX
    rcases s1 with _ | ⟨d1, s2⟩
    · simp [non_local_means_squeeze, non_local_means_squeeze_full, hnd]
      exact hX
    rcases s2 with _ | ⟨d2, s3⟩
    · simp [non_local_means_squeeze, non_local_means_squeeze_full, hnd]
      exact hnlm _ _ _ _ _ hX
    rcases s3 with _ | ⟨d3, s4⟩
    · have h0 : 0 < d0 := hpos _ (by simp)
      have h1 : 0 < d1 := hpos _ (by simp)
      have h2 : 0 < d2 := hpos _ (by simp)
      simp [non_local_means_squeeze, non_local_means_squeeze_full, hnd]
      exact Np.wfShape_transpose201
        (hnlm _ _ _ _ _ (Np.wfShape_transpose120 hX h0 h1)) h1 h2
    rcases s4 with _ | ⟨d4, s5⟩
    · have h1 : 0 < d1 := hpos _ (by simp)
      have h2 : 0 < d2 := hpos _ (by simp)
      have h3 : 0 < d3 := hpos _ (by simp)
      obtain ⟨hlen, hch⟩ := Np.wfShape_children hX
      simp only [non_local_means_squeeze, non_local_means_squeeze_full, hnd]
      norm_num
      rw [nlmLoop_eq_map]
      refine wfShape_node_of_forall (by rw [List.length_map, hlen]) ?_
      intro y hy
      rcases List.mem_map.mp hy with ⟨x, hx, rfl⟩
      have hxw : Np.WfShape x [d1, d2, d3] := hch x hx
      exact Np.wfShape_transpose201
        (hnlm _ _ _ _ _ (Np.wfShape_transpose120 hxw h1 h2)) h2 h3
    · have hne2 : ¬ X.arr.ndim = 2 := by
        rw [hnd]
        simp only [List.length_cons]
        omega
      have hne3 : ¬ X.arr.ndim = 3 := by
        rw [hnd]
        simp only [List.length_cons]
        omega
      have hne4 : ¬ X.arr.ndim = 4 := by
        rw [hnd]
        simp only [List.length_cons]
        omega
      simp [non_local_means_squeeze, non_local_means_squeeze_full, hne2, hne3, hne4]
      exact hX

/-- Witness for C5 at a concrete rank-2 CPU tensor of shape (1,1) with
identity primitives, which trivially satisfy the shape contract. -/
theorem shape_preservation_witness :
    (Np.WfShape (Tensor.mk Device.cpu (Np.node [Np.node [Np.base (1/2)]])).arr [1, 1] ∧
      (∀ d ∈ [1, 1], 0 < d) ∧
      (∀ (a : Np) (t : List ℕ) (ks : List ℤ) (m : Mode),
        Np.WfShape a t → Np.WfShape ((fun a _ _ => a) a ks m) t) ∧
      (∀ (a : Np) (t : List ℕ) (ps pd : ℤ) (fm : Bool),
        Np.WfShape a t → Np.WfShape ((fun a _ _ _ => a) a ps pd fm) t)) ∧
    (Np.WfShape (bit_depth_squeeze
        ⟨Device.cpu, Np.node [Np.node [Np.base (1/2)]]⟩ 1).arr [1, 1] ∧
    Np.WfShape (median_filter_squeeze (fun a _ _ => a)
        ⟨Device.cpu, Np.node [Np.node [Np.base (1/2)]]⟩ 3).arr [1, 1] ∧
    Np.WfShape (mean_filter_squeeze (fun a _ _ => a)
        ⟨Device.cpu, Np.node [Np.node [Np.base (1/2)]]⟩ 3).arr [1, 1] ∧
    Np.WfShape (non_local_means_squeeze (fun a _ _ _ => a)
        ⟨Device.cpu, Np.node [Np.node [Np.base (1/2)]]⟩ 1 2 true).arr [1, 1]) := by
  have hwf : Np.WfShape (Np.node [Np.node [Np.base (1/2)]]) [1, 1] := by
    refine Np.WfShape.node _ _ ?_
    intro x hx
    rcases List.mem_singleton.mp hx with rfl
    refine Np.WfShape.node _ _ ?_
    intro y hy
    rcases List.mem_singleton.mp hy with rfl
    exact Np.WfShape.base _
  have hpos : ∀ d ∈ [1, 1], 0 < d := by decide
  exact ⟨⟨hwf, hpos, fun a t ks m ht => ht, fun a t ps pd fm ht => ht⟩,
    shape_preservation (fun a _ _ => a) (fun a _ _ => a) (fun a _ _ _ => a)
      ⟨Device.cpu, Np.node [Np.node [Np.base (1/2)]]⟩ [1, 1] 1 3 1 2 true
      hwf hpos (fun a t ks m ht => ht) (fun a t ks m ht => ht)
      (fun a t ps pd fm ht => ht)⟩

/-! ## Claim theorems: batch independence of the denoiser -/

/-- C6: for a well-formed rank-4 batch, slot `i` of the batched denoiser
output equals the denoiser applied to slot `i` alone: each batch element's
output depends only on that element's input. -/
theorem nlm_batch_independence (denoise_nl_means : Np → ℤ → ℤ → Bool → Np)
    (X : Tensor) (b c h w : ℕ) (patch_size patch_distance : ℤ)
    (fast_mode : Bool)
    (hX : Np.WfShape X.arr [b, c, h, w])
    (hc : 0 < c) (hh : 0 < h) (hw : 0 < w)
    (i : ℕ) (hi : i < b) :
    Tensor.mk X.device
      ((non_local_means_squeeze denoise_nl_means X patch_size patch_distance
        fast_mode).arr.child i)
    = non_local_means_squeeze denoise_nl_means
        (Tensor.mk X.device (X.arr.child i)) patch_size patch_distance
        fast_mode := by
  have hb : 0 < b := lt_of_le_of_lt (Nat.zero_le i) hi
  have hpos : ∀ d ∈ [b, c, h, w], 0 < d := by
    intro d hd
    simp only [List.mem_cons, List.not_mem_nil, or_false] at hd
    rcases hd with rfl | rfl | rfl | rfl <;> assumption
  have hnd : X.arr.ndim = 4 := by
    rw [Np.wfShape_ndim hX hpos]
    rfl
  have hchild : Np.WfShape (X.arr.child i) [c, h, w] := Np.wfShape_child hX hi
  have hposc : ∀ d ∈ [c, h, w], 0 < d := by
    intro d hd
    simp only [List.mem_cons, List.not_mem_nil, or_false] at hd
    rcases hd with rfl | rfl | rfl <;> assumption
  have hndc : (X.arr.child i).ndim = 3 := by
    rw [Np.wfShape_ndim hchild hposc]
    rfl
  obtain ⟨hlen, hch⟩ := Np.wfShape_children hX
  simp only [non_local_means_squeeze, non_local_means_squeeze_full, hnd, hndc]
  norm_num
  rw [nlmLoop_eq_map]
  have hnode : ∀ (l : List Np) (j : ℕ),
      (Np.node l).child j = l.getD j (Np.base 0) := fun l j => rfl
  rw [hnode]
  have hi1 : i < (X.arr.children.map (fun t => Np.transpose201
      (denoise_nl_means (Np.transpose120 t) patch_size patch_distance
        true))).length := by
    rw [List.length_map, hlen]
    exact hi
  have hi2 : i < X.arr.children.length := by
    rw [hlen]
    exact hi
  rw [List.getD_eq_getElem _ (Np.base 0) hi1, List.getElem_map,
    ← List.getD_eq_getElem X.arr.children (Np.base 0) hi2]
  rfl

/-- Witness for C6 at a concrete 1×1×1×1 CPU batch with the identity
primitive. -/
theorem nlm_batch_independence_witness :
    (Np.WfShape (Tensor.mk Device.cpu
        (Np.node [Np.node [Np.node [Np.node [Np.base (1/2)]]]])).arr [1, 1, 1, 1] ∧
      0 < 1 ∧ 0 < 1 ∧ 0 < 1 ∧ (0 : ℕ) < 1) ∧
    Tensor.mk Device.cpu
      ((non_local_means_squeeze (fun a _ _ _ => a)
          ⟨Device.cpu, Np.node [Np.node [Np.node [Np.node [Np.base (1/2)]]]]⟩
          1 2 true).arr.child 0)
      = non_local_means_squeeze (fun a _ _ _ => a)
          ⟨Device.cpu,
            (Np.node [Np.node [Np.node [Np.node [Np.base (1/2)]]]]).child 0⟩
          1 2 true := by
  have hwf : Np.WfShape (Np.node [Np.node [Np.node [Np.node [Np.base (1/2)]]]])
      [1, 1, 1, 1] := by
    refine Np.WfShape.node _ _ ?_
    intro x hx
    rcases List.mem_singleton.mp hx with rfl
    refine Np.WfShape.node _ _ ?_
    intro x hx
    rcases List.mem_singleton.mp hx with rfl
    refine Np.WfShape.node _ _ ?_
    intro x hx
    rcases List.mem_singleton.mp hx with rfl
    refine Np.WfShape.node _ _ ?_
    intro x hx
    rcases List.mem_singleton.mp hx with rfl
    exact Np.WfShape.base _
  exact ⟨⟨hwf, Nat.one_pos, Nat.one_pos, Nat.one_pos, Nat.one_pos⟩,
    nlm_batch_independence (fun a _ _ _ => a)
      ⟨Device.cpu, Np.node [Np.node [Np.node [Np.node [Np.base (1/2)]]]]⟩
      1 1 1 1 1 2 true hwf Nat.one_pos Nat.one_pos Nat.one_pos 0 Nat.one_pos⟩

/-! ## Claim theorems: mutation of a CPU batch by the denoiser -/

/-- C2 (the code bug, demonstrated): on a rank-4 CPU batch the denoiser's
loop writes `X_np[i] = ...` into the numpy view that shares the input
tensor's buffer, so after the call the input tensor holds the denoised data
— here a denoising primitive that zeroes its input turns the input tensor's
`1/2` into `0` — and the returned tensor is that same mutated buffer rather
than a fresh one. -/
theorem nlm_mutates_cpu_batch_demo :
    (non_local_means_squeeze_full (fun a _ _ _ => Np.npMap (fun _ => 0) a)
        ⟨Device.cpu, Np.node [Np.node [Np.node [Np.node [Np.base (1/2)]]]]⟩
        1 1 true).1
      = Tensor.mk Device.cpu (Np.node [Np.node [Np.node [Np.node [Np.base 0]]]]) ∧
    Tensor.mk Device.cpu (Np.node [Np.node [Np.node [Np.node [Np.base 0]]]])
      ≠ Tensor.mk Device.cpu (Np.node [Np.node [Np.node [Np.node [Np.base (1/2)]]]]) ∧
    (non_local_means_squeeze_full (fun a _ _ _ => Np.npMap (fun _ => 0) a)
        ⟨Device.cpu, Np.node [Np.node [Np.node [Np.node [Np.base (1/2)]]]]⟩
        1 1 true).2
      = (non_local_means_squeeze_full (fun a _ _ _ => Np.npMap (fun _ => 0) a)
          ⟨Device.cpu, Np.node [Np.node [Np.node [Np.node [Np.base (1/2)]]]]⟩
          1 1 true).1 := by
  have hcomp : non_local_means_squeeze_full (fun a _ _ _ => Np.npMap (fun _ => 0) a)
      ⟨Device.cpu, Np.node [Np.node [Np.node [Np.node [Np.base (1/2)]]]]⟩ 1 1 true
      = (Tensor.mk Device.cpu (Np.node [Np.node [Np.node [Np.node [Np.base 0]]]]),
         Tensor.mk Device.cpu (Np.node [Np.node [Np.node [Np.node [Np.base 0]]]])) := by
    simp only [non_local_means_squeeze_full]
    norm_num [Np.ndim, Np.children, nlmLoop_eq_map, Np.transpose120, Np.transpose201,
      Np.dim0, Np.child, Np.at3, Np.npMap, Np.npMapL, List.ofFn_succ, List.ofFn_zero,
      List.getD_cons_zero, Fin.val_zero]
  refine ⟨by rw [hcomp], ?_, by rw [hcomp]⟩
  intro hcontra
  simp only [Tensor.mk.injEq, Np.node.injEq, List.cons.injEq, Np.base.injEq,
    and_true, true_and] at hcontra
  norm_num at hcontra
